import Mathlib

/-!
Verification of the REINVENT scoring-function configuration semantics
("Scoring Aggregator") described by the repository's specification.

The repository itself contains only Jupyter notebooks and JSON configuration
templates that drive the external REINVENT program; the scoring aggregation
code is not part of the repository's source. Following the specification,
the data model and the aggregation pipeline are modelled here from the
spec's words, and cross-checked against the per-step score tables recorded
in the notebooks' captured output (which is part of the source).
-/

namespace ReinventScoring

noncomputable section

/-- A molecule is identified by its SMILES string, as in the notebooks. -/
abbrev Molecule := String

/-- Modelled from the spec: the `TransformationConfig` data model — one of
sigmoid, reverse_sigmoid, double_sigmoid, no_transformation, with the
type-specific parameters low, high, k, coef_div, coef_si, coef_se. -/
inductive TransformationKind : Type
  | sigmoidT (low high k : ℝ)
  | reverseSigmoidT (low high k : ℝ)
  | doubleSigmoidT (low high coefDiv coefSi coefSe : ℝ)
  | noTransformationT

/-- Modelled from the spec: the sigmoid formula exactly as the spec writes
it, `1 / (1 + exp(k·(x − mid)))` with `mid = (low + high)/2`. -/
def sigmoidAsWritten (low high k x : ℝ) : ℝ :=
  1 / (1 + Real.exp (k * (x - (low + high) / 2)))

/-- Modelled from the spec: the sigmoid S-curve between `low` and `high`
with steepness `k`, oriented so that larger raw values score higher, which
is the orientation shown by the `raw_Aurora kinase` vs `Aurora kinase`
columns of the notebook's recorded output (raw 5.95 ↦ 0.348, raw 6.46 ↦
0.488).  Note the spec's written formula `1/(1+exp(k·(x−mid)))` has the
opposite, decreasing orientation. -/
def sigmoid (low high k x : ℝ) : ℝ :=
  1 / (1 + Real.exp (k * ((low + high) / 2 - x)))

/-- Modelled from the spec: mirrored sigmoid — lower raw values score
higher (used e.g. for docking energies). -/
def reverseSigmoid (low high k x : ℝ) : ℝ :=
  1 / (1 + Real.exp (k * (x - (low + high) / 2)))

/-- Modelled from the spec: `double_sigmoid` as a product of two opposed
sigmoids giving a band-pass response on `[low, high]`: a rising sigmoid at
`low` with steepness `coef_si / coef_div` times a falling sigmoid at `high`
with steepness `coef_se / coef_div`.  The spec flags the exact formula as
only inferable from configuration examples. -/
def doubleSigmoid (low high coefDiv coefSi coefSe x : ℝ) : ℝ :=
  (1 / (1 + Real.exp (coefSi / coefDiv * (low - x)))) *
    (1 / (1 + Real.exp (coefSe / coefDiv * (x - high))))

/-- Modelled from the spec: apply a transformation curve to a raw value. -/
def applyTransformationKind : TransformationKind → ℝ → ℝ
  | .sigmoidT low high k, x => sigmoid low high k x
  | .reverseSigmoidT low high k, x => reverseSigmoid low high k x
  | .doubleSigmoidT low high d si se, x => doubleSigmoid low high d si se x
  | .noTransformationT, x => x

/-- Modelled from the spec: a `ScoringComponentConfig` — component type tag,
name, weight, optional transformation block (components such as
`matching_substructure`, `custom_alerts` and `qed_score` carry no
transformation block in the notebooks' configurations), and the external
type-specific evaluator `evaluate(molecule) -> raw_value | failure`. -/
structure ScoringComponentConfig : Type where
  componentType : String
  name : String
  weight : ℝ
  transformation : Option TransformationKind
  evaluate : Molecule → Option ℝ

/-- Modelled from the spec: a `ScoringFunctionConfig` — aggregation name
(`custom_product` or `custom_sum`), `parallel` flag, ordered component
list. -/
structure ScoringFunctionConfig : Type where
  name : String
  parallel : Bool
  parameters : List ScoringComponentConfig

/-- Modelled from the spec: the raw value of a component on a molecule;
an evaluator failure is recorded as 0. -/
def componentRaw (c : ScoringComponentConfig) (m : Molecule) : ℝ :=
  (c.evaluate m).getD 0

/-- Modelled from the spec: the transformed value of a component on a
molecule.  An evaluator failure yields a 0 contribution for that
molecule/component pair; otherwise the component's transformation (the
identity when no transformation block is configured) is applied to the raw
value. -/
def componentScore (c : ScoringComponentConfig) (m : Molecule) : ℝ :=
  match c.evaluate m with
  | none => 0
  | some r =>
      match c.transformation with
      | none => r
      | some t => applyTransformationKind t r

/-- Modelled from the spec: running weighted product `Π tᵢ^wᵢ` over
(weight, transformed value) pairs, computed as a left fold. -/
def weightedProd (l : List (ℝ × ℝ)) : ℝ :=
  l.foldl (fun acc p => acc * p.2 ^ p.1) 1

/-- Modelled from the spec: total weight `Σ wᵢ`, computed as a left fold. -/
def totalWeight (l : List (ℝ × ℝ)) : ℝ :=
  l.foldl (fun acc p => acc + p.1) 0

/-- Modelled from the spec: running weighted sum `Σ tᵢ·wᵢ`, computed as a
left fold. -/
def weightedSum (l : List (ℝ × ℝ)) : ℝ :=
  l.foldl (fun acc p => acc + p.2 * p.1) 0

/-- Modelled from the spec: `custom_product` aggregation — the weighted
geometric-mean-style product `(Π tᵢ^wᵢ)^(1/Σwᵢ)`. -/
def customProduct (l : List (ℝ × ℝ)) : ℝ :=
  weightedProd l ^ (1 / totalWeight l)

/-- Modelled from the spec: `custom_sum` aggregation — the weighted
arithmetic mean `(Σ tᵢ·wᵢ)/(Σwᵢ)`. -/
def customSum (l : List (ℝ × ℝ)) : ℝ :=
  weightedSum l / totalWeight l

/-- Modelled from the spec: dispatch on the scoring-function name. -/
def aggregate (name : String) (l : List (ℝ × ℝ)) : ℝ :=
  if name = "custom_product" then customProduct l
  else if name = "custom_sum" then customSum l
  else 0

/-- Modelled from the spec: the per-component (weight, transformed value)
pairs of a molecule, in configuration order. -/
def componentResults (cfg : ScoringFunctionConfig) (m : Molecule) :
    List (ℝ × ℝ) :=
  cfg.parameters.map (fun c => (c.weight, componentScore c m))

/-- Modelled from the spec: the Scoring Aggregator's final score of one
molecule. -/
def scoreMolecule (cfg : ScoringFunctionConfig) (m : Molecule) : ℝ :=
  aggregate cfg.name (componentResults cfg m)

/-- Modelled from the spec: batch scoring — every molecule of the batch is
scored, each independently of the others. -/
def scoreBatch (cfg : ScoringFunctionConfig) (mols : List Molecule) :
    List ℝ :=
  mols.map (scoreMolecule cfg)

/-- The `predictive_property` component of the selectivity demo: name
"Aurora kinase", weight 6, sigmoid transformation with `low = 4`,
`high = 9`, `k = 0.25`; the external scikit-learn model is abstracted as an
evaluator returning raw value 6. -/
def auroraComponent : ScoringComponentConfig where
  componentType := "predictive_property"
  name := "Aurora kinase"
  weight := 6
  transformation := some (.sigmoidT 4 9 (1/4))
  evaluate := fun _ => some 6

/-- A weight-1 component whose configured transformation is
`no_transformation`, so its raw value `v` passes through unchanged. -/
def passComponent (v : ℝ) : ScoringComponentConfig where
  componentType := "matching_substructure"
  name := "Matching substructure"
  weight := 1
  transformation := some .noTransformationT
  evaluate := fun _ => some v

/-- A copy of component `c` whose evaluator fails (returns no value) on
the single molecule `m₀` and behaves as `c` elsewhere — the model of a
local evaluator failure. -/
def failOn (m₀ : Molecule) (c : ScoringComponentConfig) :
    ScoringComponentConfig :=
  { c with evaluate := fun x => if x = m₀ then none else c.evaluate x }

/-- Placeholder component used only as the (never hit) default of indexed
access during the parallel-collection model. -/
def defaultComponent : ScoringComponentConfig where
  componentType := ""
  name := ""
  weight := 0
  transformation := none
  evaluate := fun _ => none

/-- Modelled from the spec: a worker's evaluation of one component on one
molecule — a pure function of the molecule and the static config. -/
def evalComponent (m : Molecule) (c : ScoringComponentConfig) : ℝ × ℝ :=
  (c.weight, componentScore c m)

/-- Modelled from the spec: concurrent evaluation — workers process the
components in an arbitrary schedule `order` (a permutation of positions),
producing tagged results, which are then collected back in original
configuration order. -/
def parallelResults (cfg : ScoringFunctionConfig) (m : Molecule)
    (order : List ℕ) : List (ℝ × ℝ) :=
  (List.range cfg.parameters.length).map (fun i =>
    (List.lookup i (order.map (fun j =>
      (j, evalComponent m (cfg.parameters.getD j defaultComponent))))).getD
        (0, 0))

/-- Modelled from the spec: final score of a molecule when components are
evaluated concurrently in schedule `order`. -/
def scoreMoleculeParallel (cfg : ScoringFunctionConfig) (m : Molecule)
    (order : List ℕ) : ℝ :=
  aggregate cfg.name (parallelResults cfg m order)

/-- Modelled from the spec and the notebooks' recorded log headers: the
per-molecule reporting output.  Every component contributes an entry keyed
by its name holding the transformed value; a component carrying a
transformation block additionally contributes an entry keyed by
`raw_<name>` holding the raw value.  (In the recorded logs, `raw_` columns
appear exactly for the transformed components — `raw_Aurora kinase`,
`raw_B-RAF selectivity`, `raw_Icolos_RDkit_ADV` — and never for
`Matching substructure`, `Custom alerts` or `QED`.) -/
def reportList (cs : List ScoringComponentConfig) (m : Molecule) :
    List (String × ℝ) :=
  cs.flatMap (fun c =>
    (c.name, componentScore c m) ::
      (match c.transformation with
       | some _ => [("raw_" ++ c.name, componentRaw c m)]
       | none => []))

/-- Modelled from the spec: the report of one molecule under a scoring
configuration. -/
def report (cfg : ScoringFunctionConfig) (m : Molecule) :
    List (String × ℝ) :=
  reportList cfg.parameters m

/-- The key column of the report — the log table header. -/
def reportKeysList (cs : List ScoringComponentConfig) : List String :=
  cs.flatMap (fun c =>
    c.name ::
      (match c.transformation with
       | some _ => ["raw_" ++ c.name]
       | none => []))

/-- The header of a configuration's report. -/
def reportKeys (cfg : ScoringFunctionConfig) : List String :=
  reportKeysList cfg.parameters

/-- The `matching_substructure` component of the selectivity demo: no
transformation block is configured for it. -/
def matchingComponent : ScoringComponentConfig where
  componentType := "matching_substructure"
  name := "Matching substructure"
  weight := 1
  transformation := none
  evaluate := fun _ => some (1/2)

/-- The `custom_alerts` component of the selectivity demo: no
transformation block is configured for it. -/
def alertsComponent : ScoringComponentConfig where
  componentType := "custom_alerts"
  name := "Custom alerts"
  weight := 1
  transformation := none
  evaluate := fun _ => some 1

/-- The `selectivity` component of the selectivity demo: weight 3, delta
sigmoid transformation with `low = 0`, `high = 3`, `k = 0.25`. -/
def selectivityComponent : ScoringComponentConfig where
  componentType := "selectivity"
  name := "B-RAF selectivity"
  weight := 3
  transformation := some (.sigmoidT 0 3 (1/4))
  evaluate := fun _ => some 1

/-- The four-component `custom_product` scoring configuration of the
selectivity-demo notebook. -/
def selectivityDemoConfig : ScoringFunctionConfig where
  name := "custom_product"
  parallel := false
  parameters :=
    [auroraComponent, matchingComponent, alertsComponent,
      selectivityComponent]

/-- Modelled from the spec and the recorded log values: the
`matching_substructure` component scores 1 on a molecule matching the
required substructure and 0.5 — not 0 — on a non-match. -/
def matchingSubstructureScore (isMatch : Bool) : ℝ :=
  if isMatch then 1 else 1/2

end

/-- The `Matching substructure` column of the three per-step breakdown
tables recorded in the selectivity-demo notebook's output (steps 0, 72 and
121; ten molecules each). -/
def matchingSubstructureLogged : List ℚ :=
  [1/2, 1/2, 1/2, 1, 1/2, 1/2, 1/2, 1/2, 1/2, 1,
   1, 1, 1, 1, 1, 1/2, 1/2, 1/2, 1/2, 1/2,
   1/2, 1/2, 1/2, 1/2, 1, 1, 1, 1, 1/2, 1/2]

/- ### Fold / closed-form helper lemmas -/

theorem foldl_mul_eq (l : List (ℝ × ℝ)) (a : ℝ) :
    l.foldl (fun acc p => acc * p.2 ^ p.1) a =
      a * (l.map (fun p => p.2 ^ p.1)).prod := by
  induction l generalizing a with
  | nil => simp
  | cons p l ih => simp [ih, mul_assoc]

theorem foldl_addw_eq (l : List (ℝ × ℝ)) (a : ℝ) :
    l.foldl (fun acc p => acc + p.1) a = a + (l.map Prod.fst).sum := by
  induction l generalizing a with
  | nil => simp
  | cons p l ih => simp [ih, add_assoc]

theorem foldl_addtw_eq (l : List (ℝ × ℝ)) (a : ℝ) :
    l.foldl (fun acc p => acc + p.2 * p.1) a =
      a + (l.map (fun p => p.2 * p.1)).sum := by
  induction l generalizing a with
  | nil => simp
  | cons p l ih => simp [ih, add_assoc]

theorem weightedProd_eq (l : List (ℝ × ℝ)) :
    weightedProd l = (l.map (fun p => p.2 ^ p.1)).prod := by
  simp [weightedProd, foldl_mul_eq]

theorem totalWeight_eq (l : List (ℝ × ℝ)) :
    totalWeight l = (l.map Prod.fst).sum := by
  simp [totalWeight, foldl_addw_eq]

theorem weightedSum_eq (l : List (ℝ × ℝ)) :
    weightedSum l = (l.map (fun p => p.2 * p.1)).sum := by
  simp [weightedSum, foldl_addtw_eq]

/-- C1: for every non-empty component list, the Scoring Aggregator's final
score is `(Π tᵢ^wᵢ)^(1/Σwᵢ)` under the name `custom_product` and
`(Σ tᵢ·wᵢ)/(Σwᵢ)` under the name `custom_sum`, where `tᵢ` is component
`i`'s transformed value and `wᵢ` its weight. -/
theorem aggregator_closed_forms
    (comps : List ScoringComponentConfig) (b : Bool) (m : Molecule)
    (hne : comps ≠ []) :
    scoreMolecule ⟨"custom_product", b, comps⟩ m =
      ((comps.map (fun c => componentScore c m ^ c.weight)).prod) ^
        (1 / (comps.map (fun c => c.weight)).sum) ∧
    scoreMolecule ⟨"custom_sum", b, comps⟩ m =
      ((comps.map (fun c => componentScore c m * c.weight)).sum) /
        (comps.map (fun c => c.weight)).sum := by
  constructor
  · simp [scoreMolecule, aggregate, customProduct, componentResults,
      weightedProd_eq, totalWeight_eq, List.map_map, Function.comp_def]
  · simp [scoreMolecule, aggregate, customSum, componentResults,
      weightedSum_eq, totalWeight_eq, List.map_map, Function.comp_def]

/-- C1 witness: the closed forms at the one-component configuration
containing the Aurora kinase component. -/
theorem aggregator_closed_forms_witness :
    scoreMolecule ⟨"custom_product", false, [auroraComponent]⟩ "CCO" =
      (([auroraComponent].map
          (fun c => componentScore c "CCO" ^ c.weight)).prod) ^
        (1 / ([auroraComponent].map (fun c => c.weight)).sum) ∧
    scoreMolecule ⟨"custom_sum", false, [auroraComponent]⟩ "CCO" =
      (([auroraComponent].map
          (fun c => componentScore c "CCO" * c.weight)).sum) /
        ([auroraComponent].map (fun c => c.weight)).sum :=
  aggregator_closed_forms [auroraComponent] false "CCO"
    (List.cons_ne_nil _ _)

/-- Helper: `1/(1+exp ·)` is antitone in the exponent. -/
theorem one_div_one_add_exp_le (a b : ℝ) (hab : a ≤ b) :
    1 / (1 + Real.exp b) ≤ 1 / (1 + Real.exp a) := by
  apply one_div_le_one_div_of_le
  · positivity
  · exact add_le_add_left (Real.exp_le_exp.mpr hab) 1

/-- C2 (amended): the sigmoid transformation — oriented as in the logged
outputs, `1/(1+exp(k·(mid − x)))` — is monotone non-decreasing in the raw
input `x` for every `low < high`, `k > 0`, and `reverse_sigmoid` is
monotone non-increasing; the spec's written formula `1/(1+exp(k·(x −
mid)))` is the mirrored, non-increasing curve. -/
theorem sigmoid_monotone_reverseSigmoid_antitone
    (low high k x y : ℝ) (hlh : low < high) (hk : 0 < k) (hxy : x ≤ y) :
    sigmoid low high k x ≤ sigmoid low high k y ∧
      reverseSigmoid low high k y ≤ reverseSigmoid low high k x := by
  unfold sigmoid reverseSigmoid
  constructor
  · exact one_div_one_add_exp_le _ _
      (mul_le_mul_of_nonneg_left (by linarith) hk.le)
  · exact one_div_one_add_exp_le _ _
      (mul_le_mul_of_nonneg_left (by linarith) hk.le)

/-- C2 witness: concrete instance of the monotonicity statement at
`low = 4`, `high = 9`, `k = 1/4` (the Aurora kinase configuration). -/
theorem sigmoid_monotone_witness :
    sigmoid 4 9 (1/4) 5 ≤ sigmoid 4 9 (1/4) 6 ∧
      reverseSigmoid 4 9 (1/4) 6 ≤ reverseSigmoid 4 9 (1/4) 5 :=
  sigmoid_monotone_reverseSigmoid_antitone 4 9 (1/4) 5 6
    (by norm_num) (by norm_num) (by norm_num)

/-- C2 counterexample: the sigmoid formula exactly as the spec writes it,
`1/(1+exp(k·(x − mid)))`, is not monotone non-decreasing: with the
notebook's parameters `low = 4`, `high = 9`, `k = 1/4` it strictly
decreases from `x = 6.5` to `x = 8.5`. -/
theorem sigmoidAsWritten_not_monotone :
    (6.5 : ℝ) < 8.5 ∧
      sigmoidAsWritten 4 9 (1/4) 8.5 < sigmoidAsWritten 4 9 (1/4) 6.5 := by
  refine ⟨by norm_num, ?_⟩
  have e0 : (1/4 : ℝ) * (6.5 - (4 + 9) / 2) = 0 := by norm_num
  have e1 : (1/4 : ℝ) * (8.5 - (4 + 9) / 2) = 1/2 := by norm_num
  unfold sigmoidAsWritten
  rw [e0, e1, Real.exp_zero]
  have hexp : (1 : ℝ) < Real.exp (1/2) := by
    have := Real.exp_lt_exp.mpr (show (0:ℝ) < 1/2 by norm_num)
    rwa [Real.exp_zero] at this
  have h2 : (0 : ℝ) < 1 + 1 := by norm_num
  have := one_div_lt_one_div_of_lt h2
    (by linarith : (1:ℝ) + 1 < 1 + Real.exp (1/2))
  linarith

/-- C3: for the two-component configuration `[{weight 6, sigmoid(4, 9,
0.25)}, {weight 1, no_transformation}]` with raw values `[6, 0.0]`, the
`custom_product` aggregation is exactly 0 while the `custom_sum`
aggregation stays strictly positive; and in general a transformed value of
0 carried by a positive weight annihilates the product aggregation of any
all-positive-weight component list. -/
theorem zero_component_annihilates_product :
    scoreMolecule ⟨"custom_product", false,
        [auroraComponent, passComponent 0]⟩ "CCO" = 0 ∧
      0 < scoreMolecule ⟨"custom_sum", false,
        [auroraComponent, passComponent 0]⟩ "CCO" ∧
      ∀ (l : List (ℝ × ℝ)) (w : ℝ), (w, (0:ℝ)) ∈ l → 0 < w →
        (∀ p ∈ l, 0 < p.1) → customProduct l = 0 := by
  have hs : 0 < sigmoid 4 9 (1/4) 6 := by
    unfold sigmoid; positivity
  refine ⟨?_, ?_, ?_⟩
  · simp only [scoreMolecule, aggregate, componentResults, customProduct,
      weightedProd, totalWeight, componentScore, auroraComponent,
      passComponent, applyTransformationKind, List.map_cons, List.map_nil,
      List.foldl_cons, List.foldl_nil, if_pos]
    rw [Real.rpow_one]
    rw [mul_zero, Real.zero_rpow (by norm_num : (1:ℝ) / (0 + 6 + 1) ≠ 0)]
  · simp only [scoreMolecule, aggregate, componentResults, customSum,
      weightedSum, totalWeight, componentScore, auroraComponent,
      passComponent, applyTransformationKind, List.map_cons, List.map_nil,
      List.foldl_cons, List.foldl_nil]
    rw [if_neg (by decide)]
    simp only [if_true]
    have : (0:ℝ) + sigmoid 4 9 (1/4) 6 * 6 + 0 * 1 =
        6 * sigmoid 4 9 (1/4) 6 := by
      ring
    rw [this]
    positivity
  · intro l w hmem hw hpos
    have hprod : weightedProd l = 0 := by
      rw [weightedProd_eq]
      apply List.prod_eq_zero
      have : ((0:ℝ) ^ w) = 0 := Real.zero_rpow (ne_of_gt hw)
      rw [← this]
      exact List.mem_map.mpr ⟨(w, 0), hmem, rfl⟩
    have htot : 0 < totalWeight l := by
      rw [totalWeight_eq]
      apply List.sum_pos
      · intro x hx
        obtain ⟨p, hp, rfl⟩ := List.mem_map.mp hx
        exact hpos p hp
      · intro hnil
        rw [List.map_eq_nil_iff] at hnil
        subst hnil
        simp at hmem
    unfold customProduct
    rw [hprod]
    exact Real.zero_rpow (one_div_ne_zero (ne_of_gt htot))

/-- Helper: a list product of nonnegative reals is nonnegative. -/
theorem list_prod_nonneg (l : List ℝ) (h : ∀ x ∈ l, 0 ≤ x) : 0 ≤ l.prod := by
  induction l with
  | nil => simp
  | cons x l ih =>
      rw [List.prod_cons]
      exact mul_nonneg (h x (List.mem_cons_self x l))
        (ih fun y hy => h y (List.mem_cons_of_mem x hy))

/-- Helper: a list product of reals in `[0,1]` is at most 1. -/
theorem list_prod_le_one (l : List ℝ) (h0 : ∀ x ∈ l, 0 ≤ x)
    (h1 : ∀ x ∈ l, x ≤ 1) : l.prod ≤ 1 := by
  induction l with
  | nil => simp
  | cons x l ih =>
      rw [List.prod_cons]
      exact mul_le_one₀ (h1 x (List.mem_cons_self x l))
        (list_prod_nonneg l fun y hy => h0 y (List.mem_cons_of_mem x hy))
        (ih (fun y hy => h0 y (List.mem_cons_of_mem x hy))
          (fun y hy => h1 y (List.mem_cons_of_mem x hy)))

/-- Helper: a list sum of nonnegative reals is nonnegative. -/
theorem list_sum_nonneg (l : List ℝ) (h : ∀ x ∈ l, 0 ≤ x) : 0 ≤ l.sum := by
  induction l with
  | nil => simp
  | cons x l ih =>
      rw [List.sum_cons]
      exact add_nonneg (h x (List.mem_cons_self x l))
        (ih fun y hy => h y (List.mem_cons_of_mem x hy))

/-- C4: with strictly positive weights and transformed values in `[0,1]`,
both the `custom_product` aggregation and the `custom_sum` aggregation
produce an output in `[0,1]`. -/
theorem aggregation_output_bounded (l : List (ℝ × ℝ))
    (hw : ∀ p ∈ l, 0 < p.1) (ht : ∀ p ∈ l, 0 ≤ p.2 ∧ p.2 ≤ 1) :
    (0 ≤ customProduct l ∧ customProduct l ≤ 1) ∧
      (0 ≤ customSum l ∧ customSum l ≤ 1) := by
  have hprod0 : 0 ≤ weightedProd l := by
    rw [weightedProd_eq]
    apply list_prod_nonneg
    intro x hx
    obtain ⟨p, hp, rfl⟩ := List.mem_map.mp hx
    exact Real.rpow_nonneg (ht p hp).1 _
  have hprod1 : weightedProd l ≤ 1 := by
    rw [weightedProd_eq]
    apply list_prod_le_one
    · intro x hx
      obtain ⟨p, hp, rfl⟩ := List.mem_map.mp hx
      exact Real.rpow_nonneg (ht p hp).1 _
    · intro x hx
      obtain ⟨p, hp, rfl⟩ := List.mem_map.mp hx
      exact Real.rpow_le_one (ht p hp).1 (ht p hp).2 (hw p hp).le
  have htot0 : 0 ≤ totalWeight l := by
    rw [totalWeight_eq]
    apply list_sum_nonneg
    intro x hx
    obtain ⟨p, hp, rfl⟩ := List.mem_map.mp hx
    exact (hw p hp).le
  refine ⟨⟨Real.rpow_nonneg hprod0 _,
    Real.rpow_le_one hprod0 hprod1 (by positivity)⟩, ?_⟩
  rcases eq_or_ne l [] with rfl | hne
  · simp [customSum, weightedSum, totalWeight]
  · have htot : 0 < totalWeight l := by
      rw [totalWeight_eq]
      apply List.sum_pos
      · intro x hx
        obtain ⟨p, hp, rfl⟩ := List.mem_map.mp hx
        exact hw p hp
      · simpa using hne
    have hsum0 : 0 ≤ weightedSum l := by
      rw [weightedSum_eq]
      apply list_sum_nonneg
      intro x hx
      obtain ⟨p, hp, rfl⟩ := List.mem_map.mp hx
      exact mul_nonneg (ht p hp).1 (hw p hp).le
    have hsumle : weightedSum l ≤ totalWeight l := by
      rw [weightedSum_eq, totalWeight_eq]
      apply List.sum_le_sum
      intro p hp
      calc p.2 * p.1 ≤ 1 * p.1 :=
            mul_le_mul_of_nonneg_right (ht p hp).2 (hw p hp).le
        _ = p.1 := one_mul _
    exact ⟨div_nonneg hsum0 htot0, (div_le_one htot).mpr hsumle⟩

/-- C4 witness: the bounds at the concrete one-pair list `[(1, 1/2)]`. -/
theorem aggregation_output_bounded_witness :
    (0 ≤ customProduct [((1:ℝ), (1/2:ℝ))] ∧
        customProduct [((1:ℝ), (1/2:ℝ))] ≤ 1) ∧
      (0 ≤ customSum [((1:ℝ), (1/2:ℝ))] ∧
        customSum [((1:ℝ), (1/2:ℝ))] ≤ 1) :=
  aggregation_output_bounded [((1:ℝ), (1/2:ℝ))]
    (by intro p hp; rw [List.mem_singleton] at hp; subst hp; norm_num)
    (by intro p hp; rw [List.mem_singleton] at hp; subst hp; norm_num)

/-- C5: a scoring function with a single component of positive weight
returns exactly the component's transformed value, under both
`custom_product` and `custom_sum` aggregation, whatever the magnitude of
the weight. -/
theorem single_component_score (c : ScoringComponentConfig) (b : Bool)
    (m : Molecule) (hw : 0 < c.weight) (ht : 0 ≤ componentScore c m) :
    scoreMolecule ⟨"custom_product", b, [c]⟩ m = componentScore c m ∧
      scoreMolecule ⟨"custom_sum", b, [c]⟩ m = componentScore c m := by
  constructor
  · simp only [scoreMolecule, aggregate, componentResults, List.map_cons,
      List.map_nil, customProduct, weightedProd, totalWeight,
      List.foldl_cons, List.foldl_nil, one_mul, zero_add, if_pos]
    rw [← Real.rpow_mul ht, mul_one_div_cancel (ne_of_gt hw),
      Real.rpow_one]
  · simp only [scoreMolecule, aggregate, componentResults, List.map_cons,
      List.map_nil, customSum, weightedSum, totalWeight, List.foldl_cons,
      List.foldl_nil, zero_add]
    rw [if_neg (by decide)]
    simp only [if_true]
    rw [mul_div_assoc, div_self (ne_of_gt hw), mul_one]

/-- C5 witness: the single-component identity at a weight-2 pass-through
component whose evaluator returns raw value 1. -/
theorem single_component_score_witness :
    scoreMolecule ⟨"custom_product", false,
        [{ passComponent 1 with weight := 2 }]⟩ "CCO" =
      componentScore { passComponent 1 with weight := 2 } "CCO" ∧
    scoreMolecule ⟨"custom_sum", false,
        [{ passComponent 1 with weight := 2 }]⟩ "CCO" =
      componentScore { passComponent 1 with weight := 2 } "CCO" :=
  single_component_score { passComponent 1 with weight := 2 } false "CCO"
    (by norm_num [passComponent])
    (by norm_num [componentScore, passComponent, applyTransformationKind])

/-- Helper: each sigmoid factor `1/(1+exp a)` lies strictly between 0
and 1. -/
theorem sig_factor_mem (a : ℝ) :
    0 < 1 / (1 + Real.exp a) ∧ 1 / (1 + Real.exp a) < 1 := by
  constructor
  · positivity
  · rw [div_lt_one (by positivity)]
    linarith [Real.exp_pos a]

/-- Helper: the falling factor of `doubleSigmoid` tends to 0 at `+∞`. -/
theorem sig_fall_tendsto_zero (c high : ℝ) (hc : 0 < c) :
    Filter.Tendsto (fun x : ℝ => 1 / (1 + Real.exp (c * (x - high))))
      Filter.atTop (nhds 0) := by
  have harg : Filter.Tendsto (fun x : ℝ => c * (x - high))
      Filter.atTop Filter.atTop := by
    apply Filter.Tendsto.const_mul_atTop hc
    simp only [sub_eq_add_neg]
    exact Filter.tendsto_atTop_add_const_right _ _ Filter.tendsto_id
  have hden : Filter.Tendsto (fun x : ℝ => 1 + Real.exp (c * (x - high)))
      Filter.atTop Filter.atTop :=
    Filter.tendsto_atTop_add_const_left _ _
      (Real.tendsto_exp_atTop.comp harg)
  simpa [one_div] using tendsto_inv_atTop_zero.comp hden

/-- Helper: the rising factor of `doubleSigmoid` tends to 0 at `−∞`. -/
theorem sig_rise_tendsto_zero (c low : ℝ) (hc : 0 < c) :
    Filter.Tendsto (fun x : ℝ => 1 / (1 + Real.exp (c * (low - x))))
      Filter.atBot (nhds 0) := by
  have hsub : Filter.Tendsto (fun x : ℝ => low - x)
      Filter.atBot Filter.atTop := by
    have h2 := Filter.tendsto_atTop_add_const_left Filter.atBot low
      (Filter.tendsto_neg_atBot_atTop (β := ℝ))
    simpa [← sub_eq_add_neg] using h2
  have harg : Filter.Tendsto (fun x : ℝ => c * (low - x))
      Filter.atBot Filter.atTop :=
    Filter.Tendsto.const_mul_atTop hc hsub
  have hden : Filter.Tendsto (fun x : ℝ => 1 + Real.exp (c * (low - x)))
      Filter.atBot Filter.atTop :=
    Filter.tendsto_atTop_add_const_left _ _
      (Real.tendsto_exp_atTop.comp harg)
  simpa [one_div] using tendsto_inv_atTop_zero.comp hden

/-- C6 (amended): for every `low < high` and positive `coef_div`,
`coef_si`, `coef_se`, the double_sigmoid — modelled as a product of two
opposed sigmoids — attains a strictly positive value below 1 at the
midpoint `(low+high)/2` (not exactly 1), and decays toward 0 as the raw
input leaves `[low, high]` in either direction (limit 0 at `±∞`). -/
theorem doubleSigmoid_band_pass (low high d si se : ℝ)
    (hlh : low < high) (hd : 0 < d) (hsi : 0 < si) (hse : 0 < se) :
    (0 < doubleSigmoid low high d si se ((low + high) / 2) ∧
        doubleSigmoid low high d si se ((low + high) / 2) < 1) ∧
      Filter.Tendsto (doubleSigmoid low high d si se)
        Filter.atTop (nhds 0) ∧
      Filter.Tendsto (doubleSigmoid low high d si se)
        Filter.atBot (nhds 0) := by
  have hfac : ∀ a : ℝ, 0 < 1 / (1 + Real.exp a) ∧
      1 / (1 + Real.exp a) < 1 := sig_factor_mem
  refine ⟨⟨?_, ?_⟩, ?_, ?_⟩
  · unfold doubleSigmoid
    exact mul_pos (hfac _).1 (hfac _).1
  · unfold doubleSigmoid
    have h1 := hfac (si / d * (low - (low + high) / 2))
    have h2 := hfac (se / d * ((low + high) / 2 - high))
    nlinarith [h1.1, h1.2, h2.1, h2.2]
  · apply squeeze_zero
      (g := fun x => 1 / (1 + Real.exp (se / d * (x - high))))
    · intro x
      unfold doubleSigmoid
      exact (mul_pos (hfac _).1 (hfac _).1).le
    · intro x
      unfold doubleSigmoid
      exact mul_le_of_le_one_left (hfac _).1.le (hfac _).2.le
    · exact sig_fall_tendsto_zero (se / d) high (by positivity)
  · apply squeeze_zero
      (g := fun x => 1 / (1 + Real.exp (si / d * (low - x))))
    · intro x
      unfold doubleSigmoid
      exact (mul_pos (hfac _).1 (hfac _).1).le
    · intro x
      unfold doubleSigmoid
      exact mul_le_of_le_one_right (hfac _).1.le (hfac _).2.le
    · exact sig_rise_tendsto_zero (si / d) low (by positivity)

/-- C6 witness: the band-pass shape at the concrete parameters
`low = 0`, `high = 2`, `coef_div = coef_si = coef_se = 1`. -/
theorem doubleSigmoid_band_pass_witness :
    (0 < doubleSigmoid 0 2 1 1 1 ((0 + 2) / 2) ∧
        doubleSigmoid 0 2 1 1 1 ((0 + 2) / 2) < 1) ∧
      Filter.Tendsto (doubleSigmoid 0 2 1 1 1) Filter.atTop (nhds 0) ∧
      Filter.Tendsto (doubleSigmoid 0 2 1 1 1) Filter.atBot (nhds 0) :=
  doubleSigmoid_band_pass 0 2 1 1 1 (by norm_num) (by norm_num)
    (by norm_num) (by norm_num)

/-- C6 counterexample: the double_sigmoid does not evaluate to exactly 1
at the midpoint of `[low, high]`: at `low = 0`, `high = 2`,
`coef_div = coef_si = coef_se = 1`, its value at the midpoint 1 is the
square of `1/(1+exp(−1))`, which is strictly below 1. -/
theorem doubleSigmoid_midpoint_ne_one :
    (0 : ℝ) < 2 ∧ doubleSigmoid 0 2 1 1 1 ((0 + 2) / 2) ≠ 1 := by
  refine ⟨by norm_num, ne_of_lt ?_⟩
  unfold doubleSigmoid
  have h1 := sig_factor_mem (1 / 1 * (0 - (0 + 2) / 2))
  have h2 := sig_factor_mem (1 / 1 * ((0 + 2) / 2 - 2))
  nlinarith [h1.1, h1.2, h2.1, h2.2]

/-- C7: when one component's evaluator fails on one molecule, that
molecule/component pair contributes 0, the whole batch still receives a
score (one per molecule, no abort), and the scores of all other molecules
are unchanged with respect to the non-failing configuration. -/
theorem evaluator_failure_is_local (pre post : List ScoringComponentConfig)
    (c : ScoringComponentConfig) (nm : String) (b : Bool) (m₀ : Molecule)
    (mols : List Molecule) :
    componentScore (failOn m₀ c) m₀ = 0 ∧
      (scoreBatch ⟨nm, b, pre ++ failOn m₀ c :: post⟩ mols).length =
        mols.length ∧
      ∀ m ∈ mols, m ≠ m₀ →
        scoreMolecule ⟨nm, b, pre ++ failOn m₀ c :: post⟩ m =
          scoreMolecule ⟨nm, b, pre ++ c :: post⟩ m := by
  refine ⟨?_, ?_, ?_⟩
  · simp [componentScore, failOn]
  · simp [scoreBatch]
  · intro m _ hne
    have hcs : componentScore (failOn m₀ c) m = componentScore c m := by
      simp [componentScore, failOn, if_neg hne]
    have hw : (failOn m₀ c).weight = c.weight := rfl
    simp [scoreMolecule, componentResults, hcs, hw]

/-- Helper: looking up a key in an association list tabulating `f` finds
`f` at that key. -/
theorem lookup_map_pair (l : List ℕ) (f : ℕ → ℝ × ℝ) (i : ℕ)
    (hi : i ∈ l) :
    List.lookup i (l.map (fun j => (j, f j))) = some (f i) := by
  induction l with
  | nil => cases hi
  | cons j l ih =>
      rw [List.map_cons, List.lookup_cons]
      by_cases h : i = j
      · subst h
        simp
      · have hbeq : (i == j) = false := beq_eq_false_iff_ne.mpr h
        rw [hbeq]
        exact ih (by
          rcases List.mem_cons.mp hi with h1 | h1
          · exact absurd h1 h
          · exact h1)

/-- Helper: tabulating a list by positions recovers a plain map. -/
theorem range_map_getD {α β : Type} (l : List α) (g : α → β) (d : α) :
    (List.range l.length).map (fun i => g (l.getD i d)) = l.map g := by
  induction l with
  | nil => simp
  | cons x xs ih =>
      rw [List.length_cons, List.range_succ_eq_map, List.map_cons,
        List.map_map, List.map_cons]
      refine congrArg (g ((x :: xs).getD 0 d) :: ·) ?_
      calc (List.range xs.length).map
            ((fun i => g ((x :: xs).getD i d)) ∘ Nat.succ)
          = (List.range xs.length).map (fun i => g (xs.getD i d)) := by
            apply List.map_congr_left
            intro i _
            rfl
        _ = xs.map g := ih

/-- C8: the final aggregated score is independent of the evaluation
schedule: for every permutation `order` of the component positions, the
concurrent run — which collects results back in configuration order —
produces exactly the sequential score. -/
theorem parallel_score_eq_sequential (cfg : ScoringFunctionConfig)
    (m : Molecule) (order : List ℕ)
    (hperm : order.Perm (List.range cfg.parameters.length)) :
    scoreMoleculeParallel cfg m order = scoreMolecule cfg m := by
  have hres : parallelResults cfg m order = componentResults cfg m := by
    unfold parallelResults componentResults
    have step1 : (List.range cfg.parameters.length).map (fun i =>
        (List.lookup i (order.map (fun j =>
          (j, evalComponent m
            (cfg.parameters.getD j defaultComponent))))).getD (0, 0)) =
        (List.range cfg.parameters.length).map (fun i =>
          evalComponent m (cfg.parameters.getD i defaultComponent)) := by
      apply List.map_congr_left
      intro i hi
      rw [lookup_map_pair order _ i (hperm.mem_iff.mpr hi)]
      rfl
    rw [step1, range_map_getD]
    rfl
  unfold scoreMoleculeParallel scoreMolecule
  rw [hres]

/-- C8 witness: a two-component configuration evaluated in the reversed
schedule `[1, 0]` yields the same score as the sequential run. -/
theorem parallel_score_eq_sequential_witness :
    scoreMoleculeParallel
        ⟨"custom_product", true, [auroraComponent, passComponent 1]⟩
        "CCO" [1, 0] =
      scoreMolecule
        ⟨"custom_product", true, [auroraComponent, passComponent 1]⟩
        "CCO" :=
  parallel_score_eq_sequential
    ⟨"custom_product", true, [auroraComponent, passComponent 1]⟩
    "CCO" [1, 0] (by decide)

/-- C9 counterexample: in the selectivity-demo configuration the report
header does contain the `Matching substructure` column but no
`raw_Matching substructure` column, so not every component contributes
both a name entry and a `raw_<name>` entry. -/
theorem report_missing_raw_for_untransformed :
    "Matching substructure" ∈ reportKeys selectivityDemoConfig ∧
      "raw_Matching substructure" ∉ reportKeys selectivityDemoConfig := by
  have hkeys : reportKeys selectivityDemoConfig =
      ["Aurora kinase", "raw_Aurora kinase", "Matching substructure",
        "Custom alerts", "B-RAF selectivity", "raw_B-RAF selectivity"] := by
    rfl
  rw [hkeys]
  constructor
  · simp
  · simp

/-- C9 (amended): every configured component contributes an entry keyed by
its name (the transformed value) to the per-molecule report; a component
with a transformation block additionally contributes the `raw_<name>`
entry (the raw value); components without a transformation block
contribute only the name entry. -/
theorem report_contains_component_entries (cfg : ScoringFunctionConfig)
    (c : ScoringComponentConfig) (m : Molecule)
    (hc : c ∈ cfg.parameters) :
    (c.name, componentScore c m) ∈ report cfg m ∧
      (c.transformation.isSome →
        ("raw_" ++ c.name, componentRaw c m) ∈ report cfg m) := by
  constructor
  · unfold report reportList
    exact List.mem_flatMap.mpr ⟨c, hc, List.mem_cons_self _ _⟩
  · intro hsome
    obtain ⟨t, ht⟩ := Option.isSome_iff_exists.mp hsome
    unfold report reportList
    refine List.mem_flatMap.mpr ⟨c, hc, ?_⟩
    rw [ht]
    simp

/-- C9 witness: the Aurora kinase component's two report entries in the
selectivity-demo configuration. -/
theorem report_contains_component_entries_witness :
    (auroraComponent.name, componentScore auroraComponent "CCO") ∈
        report selectivityDemoConfig "CCO" ∧
      (auroraComponent.transformation.isSome →
        ("raw_" ++ auroraComponent.name,
          componentRaw auroraComponent "CCO") ∈
          report selectivityDemoConfig "CCO") :=
  report_contains_component_entries selectivityDemoConfig auroraComponent
    "CCO" (by simp [selectivityDemoConfig])

/-- C10: every `Matching substructure` value in the recorded breakdowns is
0.5 or 1.0; the modelled evaluator takes only the values 0.5 and 1 and is
never 0; prepending a weight-1 non-match halves the weighted product
rather than annihilating it, and the `custom_product` aggregate of any
all-positive component list stays strictly positive with the non-match
included. -/
theorem matching_substructure_half_or_one :
    (∀ v ∈ matchingSubstructureLogged, v = 1/2 ∨ v = 1) ∧
      (∀ b : Bool, matchingSubstructureScore b = 1/2 ∨
        matchingSubstructureScore b = 1) ∧
      (∀ b : Bool, matchingSubstructureScore b ≠ 0) ∧
      (∀ l : List (ℝ × ℝ),
        weightedProd (((1:ℝ), matchingSubstructureScore false) :: l) =
          1/2 * weightedProd l) ∧
      (∀ l : List (ℝ × ℝ), (∀ p ∈ l, 0 < p.1 ∧ 0 < p.2) →
        0 < customProduct
          (((1:ℝ), matchingSubstructureScore false) :: l)) := by
  refine ⟨by intro v hv; fin_cases hv <;> norm_num, ?_, ?_, ?_, ?_⟩
  · intro b
    cases b
    · left; simp [matchingSubstructureScore]
    · right; simp [matchingSubstructureScore]
  · intro b
    cases b <;> norm_num [matchingSubstructureScore]
  · intro l
    rw [weightedProd_eq, weightedProd_eq, List.map_cons, List.prod_cons]
    simp [matchingSubstructureScore]
  · intro l hl
    have hprod : 0 < weightedProd
        (((1:ℝ), matchingSubstructureScore false) :: l) := by
      rw [weightedProd_eq]
      apply List.prod_pos
      intro a ha
      rw [List.map_cons] at ha
      rcases List.mem_cons.mp ha with h | h
      · subst h
        simp only [matchingSubstructureScore, if_neg Bool.false_ne_true]
        rw [Real.rpow_one]
        norm_num
      · obtain ⟨p, hp, rfl⟩ := List.mem_map.mp h
        exact Real.rpow_pos_of_pos (hl p hp).2 _
    exact Real.rpow_pos_of_pos hprod _

end ReinventScoring
